import Mathlib

/-!
Verification of the scaled dot-product attention notebook
(src/Notebooks/00_scaled_dot_product.ipynb).

The notebook works with dense numpy / tensorflow arrays.  We embed a dense
2-D array as a rectangular list of rows of real numbers, and the library
matrix product as a shape-checked operation returning an `Option`
(numpy / tensorflow raise an error when the inner dimensions disagree).
Real numbers idealize IEEE floats: `Real.exp` never overflows and
`Real.sqrt` of a negative argument is `0` rather than NaN, which matters
only for the error-behaviour analysis, where we only assert whether a call
produces a result at all.
-/

namespace SDPA

/-- A dense 2-D array: a list of rows of real entries. -/
abbrev Mat := List (List ℝ)

/-- Notebook cell `def dot_prod(v1, v2): return np.sum(v1*v2)`:
elementwise product followed by a sum. -/
def dot_prod (v1 v2 : List ℝ) : ℝ :=
  (List.zipWith (fun a b => a * b) v1 v2).sum

/-- Number of columns of a dense array: the length of its first row
(numpy / tensorflow arrays are rectangular by construction). -/
def ncols (M : Mat) : ℕ :=
  (M.headD []).length

/-- Shape predicate: M is an r × c dense array. -/
def isRect (M : Mat) (r c : ℕ) : Prop :=
  M.length = r ∧ ∀ row ∈ M, row.length = c

/-- The library transpose `M.T`: column j of M becomes row j. -/
def transpose (M : Mat) : Mat :=
  (List.range (ncols M)).map (fun j => M.map (fun row => row.getD j 0))

/-- The library matrix product `A @ B`: entry (i, j) is the dot product of
row i of A with column j of B.  As in numpy / tensorflow, the product
fails (here: returns `none`) when the row length of A does not match the
row count of B. -/
def matmul (A B : Mat) : Option Mat :=
  if ∀ row ∈ A, row.length = B.length then
    some (A.map (fun ar =>
      (List.range (ncols B)).map (fun j =>
        dot_prod ar (B.map (fun br => br.getD j 0)))))
  else none

/-- Row-wise softmax (`tf.nn.softmax(..., axis=-1)` on a 2-D tensor acts on
each row): every entry is exponentiated and divided by the sum of the
exponentials of its row. -/
noncomputable def softmaxRow (r : List ℝ) : List ℝ :=
  r.map (fun x => Real.exp x / (r.map Real.exp).sum)

/-- Row-wise softmax of a 2-D array. -/
noncomputable def softmaxRows (M : Mat) : Mat :=
  M.map softmaxRow

/-- The scaling step `A / tf.math.sqrt(dk)` (and the exploratory
`A / np.sqrt(6)`): every entry divided by the square root of dk. -/
noncomputable def scale (M : Mat) (dk : ℝ) : Mat :=
  M.map (fun r => r.map (fun x => x / Real.sqrt dk))

/-- Result of the layer call: a bare output, or the pair of attention
matrix and output when `return_attn` is set. -/
inductive AttnResult
  | single (O : Mat)
  | pair (A O : Mat)

/-- The output component of a call result. -/
def resultO : AttnResult → Mat
  | .single O => O
  | .pair _ O => O

/-- Steps 2–4 of `ScaledDotProductSA.call`, applied to already-projected
Q, K, V (the attention kernel of the spec):
`A = Q @ K.T`; `A = tf.nn.softmax(A / tf.math.sqrt(dk), axis=-1)`;
`output = A @ V`; `if return_attn: return A, output else: return output`.
Fails (returns `none`) exactly when one of the library matrix products
fails. -/
noncomputable def attention (Q K V : Mat) (dk : ℝ) (return_attn : Bool) :
    Option AttnResult :=
  (matmul Q (transpose K)).bind fun S =>
    (matmul (softmaxRows (scale S dk)) V).map fun O =>
      if return_attn then .pair (softmaxRows (scale S dk)) O
      else .single O

/-- Parameters of the `ScaledDotProductSA` layer after `build`: the scale
dk and the weights and biases of the three Dense projections built with
units dk, dk, dv. -/
structure SDPParams where
  dk : ℝ
  Wq : Mat
  bq : List ℝ
  Wk : Mat
  bk : List ℝ
  Wv : Mat
  bv : List ℝ
  return_attn : Bool

/-- A Keras Dense layer with kernel W and bias b: `y = X @ W + b`, the
bias added to every row of the product. -/
noncomputable def dense (W : Mat) (b : List ℝ) (X : Mat) : Option Mat :=
  (matmul X W).map (fun Y => Y.map (fun row => List.zipWith (fun y c => y + c) row b))

/-- The full `ScaledDotProductSA.call`: project the input through the
three Dense layers, then run steps 2–4 on the projections. -/
noncomputable def SDPcall (p : SDPParams) (X : Mat) : Option AttnResult :=
  match dense p.Wq p.bq X, dense p.Wk p.bk X, dense p.Wv p.bv X with
  | some Q, some K, some V =>
      (matmul Q (transpose K)).bind fun S =>
        (matmul (softmaxRows (scale S p.dk)) V).map fun O =>
          if p.return_attn then .pair (softmaxRows (scale S p.dk)) O
          else .single O
  | _, _, _ => none

/-- The row maximum `np.max(..., axis=1)` of a (nonempty) row. -/
noncomputable def rowMax : List ℝ → ℝ
  | [] => 0
  | a :: t => t.foldl max a

/-- Exploratory cell `A = A / A.max(axis=1)[:,None]`: divide every row by
its maximum. -/
noncomputable def maxNormRows (M : Mat) : Mat :=
  M.map (fun r => r.map (fun x => x / rowMax r))

/-- The exploratory (non-final) normalization pipeline of the notebook:
`A = Q @ K.T`; `A = A / np.sqrt(6)`; `A = A / A.max(axis=1)[:,None]`. -/
noncomputable def explAttn (Q K : Mat) : Option Mat :=
  (matmul Q (transpose K)).map (fun S => maxNormRows (scale S 6))

/-- The sample query of the notebook, `np.linspace(1, 6, num=6)`. -/
def qSample : List ℝ := [1, 2, 3, 4, 5, 6]

/-- The sample keys of the notebook, stacked into the matrix K. -/
def Ksample : Mat := [[1, 0, -1, 2, 7, 4], [1, 2, 3, 4, 7, 6]]

/-! ### List helpers -/

theorem getD_map_lt {α β : Type _} (f : α → β) (l : List α) (i : ℕ)
    (h : i < l.length) (d : β) (d2 : α) :
    (l.map f).getD i d = f (l.getD i d2) := by
  induction l generalizing i with
  | nil => simp at h
  | cons a t ih =>
    cases i with
    | zero => simp
    | succ n =>
      simp only [List.map_cons, List.getD_cons_succ]
      exact ih n (by simpa using h)

theorem range_map_getD {α β : Type _} (l : List α) (f : α → β) (d : α) :
    (List.range l.length).map (fun j => f (l.getD j d)) = l.map f := by
  induction l with
  | nil => simp
  | cons a t ih =>
    rw [List.length_cons, List.range_succ_eq_map, List.map_cons]
    simp only [List.getD_cons_zero, List.map_map]
    have hfun : ((fun j => f ((a :: t).getD j d)) ∘ Nat.succ) = fun j => f (t.getD j d) := by
      funext j
      simp [Function.comp, List.getD_cons_succ]
    rw [hfun, ih, List.map_cons]

theorem range_map_getD_id (l : List ℝ) :
    (List.range l.length).map (fun j => l.getD j 0) = l := by
  simpa using range_map_getD l id 0

/-! ### Shape and transpose facts -/

theorem matmul_some {A B : Mat} (h : ∀ row ∈ A, row.length = B.length) :
    matmul A B = some (A.map (fun ar =>
      (List.range (ncols B)).map (fun j =>
        dot_prod ar (B.map (fun br => br.getD j 0))))) := by
  unfold matmul
  rw [if_pos h]

theorem matmul_none {A B : Mat} (h : ¬ ∀ row ∈ A, row.length = B.length) :
    matmul A B = none := by
  unfold matmul
  rw [if_neg h]

theorem transpose_length (M : Mat) : (transpose M).length = ncols M := by
  simp [transpose]

theorem ncols_eq {M : Mat} {r c : ℕ} (h : isRect M r c) (hr : 0 < r) :
    ncols M = c := by
  obtain ⟨hlen, hrow⟩ := h
  cases M with
  | nil =>
    simp at hlen
    omega
  | cons a t =>
    simpa [ncols] using hrow a (by simp)

theorem ncols_transpose {K : Mat} {nk d : ℕ} (hK : isRect K nk d) (hd : 0 < d)
    (hnk : 0 < nk) : ncols (transpose K) = K.length := by
  have hc : ncols K = d := ncols_eq hK hnk
  obtain ⟨e, he⟩ : ∃ e, d = e + 1 := ⟨d - 1, by omega⟩
  rw [show transpose K
      = (List.range (ncols K)).map (fun j => K.map (fun row => row.getD j 0)) from rfl]
  rw [hc, he, List.range_succ_eq_map]
  simp [ncols]

theorem getD_mem {α : Type _} {l : List α} {i : ℕ} (h : i < l.length) (d : α) :
    l.getD i d ∈ l := by
  rw [List.getD_eq_getElem l d h]
  exact List.getElem_mem h

theorem transpose_col {K : Mat} {nk d : ℕ} (hK : isRect K nk d) (hd : 0 < d)
    (hnk : 0 < nk) {j : ℕ} (hj : j < K.length) :
    (transpose K).map (fun br => br.getD j 0) = K.getD j [] := by
  have hc : ncols K = d := ncols_eq hK hnk
  have hrowlen : (K.getD j []).length = d := hK.2 _ (getD_mem hj [])
  rw [show transpose K
      = (List.range (ncols K)).map (fun c => K.map (fun row => row.getD c 0)) from rfl]
  rw [List.map_map]
  have hpt : ∀ c ∈ List.range (ncols K),
      ((fun br => br.getD j 0) ∘ fun c => K.map (fun row => row.getD c 0)) c
        = (K.getD j []).getD c 0 := by
    intro c _
    exact getD_map_lt (fun row => row.getD c 0) K j hj 0 []
  rw [List.map_congr_left hpt, hc, ← hrowlen]
  exact range_map_getD_id _

theorem matmul_transpose_eq {M K : Mat} {nk d : ℕ} (hK : isRect K nk d)
    (hd : 0 < d) (hnk : 0 < nk) (hM : ∀ row ∈ M, row.length = d) :
    matmul M (transpose K)
      = some (M.map (fun r => K.map (fun k => dot_prod r k))) := by
  have hTlen : (transpose K).length = d := by
    rw [transpose_length, ncols_eq hK hnk]
  rw [matmul_some (by intro row hrow; rw [hTlen]; exact hM row hrow)]
  congr 1
  apply List.map_congr_left
  intro r _
  rw [ncols_transpose hK hd hnk]
  have hpt : ∀ j ∈ List.range K.length,
      dot_prod r ((transpose K).map (fun br => br.getD j 0))
        = dot_prod r (K.getD j []) := by
    intro j hj
    rw [transpose_col hK hd hnk (List.mem_range.mp hj)]
  rw [List.map_congr_left hpt]
  exact range_map_getD K (fun k => dot_prod r k) []

theorem scoresSpec_entry {Q K : Mat} {i j : ℕ} (hi : i < Q.length)
    (hj : j < K.length) :
    (((Q.map (fun r => K.map (fun k => dot_prod r k))).getD i []).getD j 0)
      = dot_prod (Q.getD i []) (K.getD j []) := by
  rw [getD_map_lt (fun r => K.map (fun k => dot_prod r k)) Q i hi [] []]
  exact getD_map_lt (fun k => dot_prod (Q.getD i []) k) K j hj 0 []

theorem softmax_scale_row_length {S : Mat} {dk : ℝ} {n : ℕ}
    (hS : ∀ row ∈ S, row.length = n) :
    ∀ row ∈ softmaxRows (scale S dk), row.length = n := by
  intro row hrow
  simp only [softmaxRows, scale, List.map_map, List.mem_map] at hrow
  obtain ⟨r, hr, rfl⟩ := hrow
  simpa [Function.comp, softmaxRow] using hS r hr

/-! ### Softmax rows are probability vectors -/

theorem softmaxRow_sum_eq_one {r : List ℝ} (h : r ≠ []) :
    (softmaxRow r).sum = 1 := by
  have hT : 0 < (r.map Real.exp).sum := by
    apply List.sum_pos
    · intro x hx
      obtain ⟨y, _, rfl⟩ := List.mem_map.mp hx
      exact Real.exp_pos y
    · simpa using h
  unfold softmaxRow
  have hdiv : (r.map fun x => Real.exp x / (r.map Real.exp).sum)
      = r.map fun x => Real.exp x * ((r.map Real.exp).sum)⁻¹ := by
    simp [div_eq_mul_inv]
  rw [hdiv, List.sum_map_mul_right, mul_inv_cancel₀ (ne_of_gt hT)]

theorem softmaxRow_nonneg (r : List ℝ) : ∀ x ∈ softmaxRow r, 0 ≤ x := by
  intro x hx
  obtain ⟨y, _, rfl⟩ := List.mem_map.mp hx
  have hT : 0 ≤ (r.map Real.exp).sum := by
    apply List.sum_nonneg
    intro z hz
    obtain ⟨w, _, rfl⟩ := List.mem_map.mp hz
    exact le_of_lt (Real.exp_pos w)
  exact div_nonneg (le_of_lt (Real.exp_pos y)) hT

/-! ### Shared facts about the kernel and the layer call -/

theorem attention_toggle (Q K V : Mat) (dk : ℝ) :
    attention Q K V dk false
      = (attention Q K V dk true).map (fun r => AttnResult.single (resultO r)) := by
  unfold attention
  cases hS : matmul Q (transpose K) with
  | none => simp
  | some S =>
    cases hO : matmul (softmaxRows (scale S dk)) V with
    | none => simp [hO]
    | some O => simp [hO, resultO]

theorem SDPcall_eq (p : SDPParams) (X : Mat) :
    SDPcall p X
      = match dense p.Wq p.bq X, dense p.Wk p.bk X, dense p.Wv p.bv X with
        | some Q, some K, some V => attention Q K V p.dk p.return_attn
        | _, _, _ => none := by
  unfold SDPcall attention
  cases dense p.Wq p.bq X with
  | none => rfl
  | some Q =>
    cases dense p.Wk p.bk X with
    | none => rfl
    | some K =>
      cases dense p.Wv p.bv X with
      | none => rfl
      | some V => rfl

theorem SDPcall_toggle (p : SDPParams) (X : Mat) :
    SDPcall { p with return_attn := false } X
      = (SDPcall { p with return_attn := true } X).map
          (fun r => AttnResult.single (resultO r)) := by
  rw [SDPcall_eq, SDPcall_eq]
  dsimp only
  cases dense p.Wq p.bq X with
  | none => rfl
  | some Q =>
    cases dense p.Wk p.bk X with
    | none => rfl
    | some K =>
      cases dense p.Wv p.bv X with
      | none => rfl
      | some V => exact attention_toggle Q K V p.dk

/-! ### Claim theorems -/

/-- C1: for Q of shape (nq, d), K of shape (nk, d), V of shape (nk, dv)
with 0 < d and 0 < nk, the kernel succeeds; the raw score matrix
S = Q · Kᵗ has entry (i, j) equal to the raw dot product of query row i
with key row j; the attention matrix A is the row-wise softmax of the
scaled scores S / √dk; and the returned output O is the library product
A · V, of shape (nq, dv). -/
theorem attention_computes_scaled_softmax_weighting
    (Q K V : Mat) (dk : ℝ) (nq nk d dv : ℕ)
    (hQ : isRect Q nq d) (hK : isRect K nk d) (hV : isRect V nk dv)
    (hd : 0 < d) (hnk : 0 < nk) :
    ∃ S A O,
      matmul Q (transpose K) = some S ∧
      (∀ i < nq, ∀ j < nk,
        (S.getD i []).getD j 0 = dot_prod (Q.getD i []) (K.getD j [])) ∧
      A = softmaxRows (scale S dk) ∧
      matmul A V = some O ∧
      attention Q K V dk true = some (.pair A O) ∧
      attention Q K V dk false = some (.single O) ∧
      isRect O nq dv := by
  have hS := matmul_transpose_eq hK hd hnk hQ.2
  have hSrows : ∀ row ∈ Q.map (fun r => K.map (fun k => dot_prod r k)),
      row.length = nk := by
    intro row hrow
    obtain ⟨r, _, rfl⟩ := List.mem_map.mp hrow
    simpa using hK.1
  have hArows : ∀ row ∈ softmaxRows (scale (Q.map (fun r => K.map (fun k => dot_prod r k))) dk),
      row.length = V.length := by
    rw [hV.1]
    exact softmax_scale_row_length hSrows
  have hO := matmul_some hArows
  refine ⟨_, _, _, hS, ?_, rfl, hO, ?_, ?_, ?_, ?_⟩
  · intro i hi j hj
    exact scoresSpec_entry (by rw [hQ.1]; exact hi) (by rw [hK.1]; exact hj)
  · unfold attention
    rw [hS]
    simp [hO]
  · unfold attention
    rw [hS]
    simp [hO]
  · simp [softmaxRows, scale, hQ.1]
  · intro row hrow
    obtain ⟨ar, _, rfl⟩ := List.mem_map.mp hrow
    simp [ncols_eq hV hnk]

/-- C2: for valid Q, K, V (rectangular with matching shapes, at least one
key, keys of positive dimension), every entry of the attention matrix A
returned by the kernel is non-negative and every row of A sums to exactly
1, so each row is a probability distribution over the keys. -/
theorem attention_rows_are_probability_distributions
    (Q K V : Mat) (dk : ℝ) (nq nk d dv : ℕ) (A O : Mat)
    (hQ : isRect Q nq d) (hK : isRect K nk d) (hV : isRect V nk dv)
    (hd : 0 < d) (hnk : 0 < nk)
    (h : attention Q K V dk true = some (.pair A O)) :
    ∀ row ∈ A, row.sum = 1 ∧ ∀ x ∈ row, 0 ≤ x := by
  have hS := matmul_transpose_eq hK hd hnk hQ.2
  unfold attention at h
  rw [hS, Option.some_bind] at h
  cases hMV : matmul (softmaxRows (scale (Q.map (fun r => K.map (fun k => dot_prod r k))) dk)) V with
  | none =>
    rw [hMV] at h
    simp at h
  | some O2 =>
    rw [hMV] at h
    simp only [Option.map_some', if_true, Option.some_inj, AttnResult.pair.injEq] at h
    obtain ⟨hA, -⟩ := h
    subst hA
    intro row hrow
    obtain ⟨r2, hr2, rfl⟩ := List.mem_map.mp hrow
    have hr2len : r2.length = nk := by
      obtain ⟨r, hr, rfl⟩ := List.mem_map.mp hr2
      obtain ⟨qr, _, rfl⟩ := List.mem_map.mp hr
      simpa using hK.1
    have hne : r2 ≠ [] := by
      intro hnil
      rw [hnil] at hr2len
      simp at hr2len
      omega
    exact ⟨softmaxRow_sum_eq_one hne, softmaxRow_nonneg r2⟩

/-- C4: the return_attn toggle only controls whether the attention matrix
is additionally returned: for every input, the call without return_attn
equals the O-component of the call with return_attn set, both for the
kernel and for the trainable layer. -/
theorem return_attn_only_selects_output :
    (∀ (Q K V : Mat) (dk : ℝ),
      attention Q K V dk false
        = (attention Q K V dk true).map (fun r => AttnResult.single (resultO r))) ∧
    (∀ (p : SDPParams) (X : Mat),
      SDPcall { p with return_attn := false } X
        = (SDPcall { p with return_attn := true } X).map
            (fun r => AttnResult.single (resultO r))) :=
  ⟨attention_toggle, SDPcall_toggle⟩

/-! ### The concrete notebook inputs and numeric bounds -/

theorem scores_sample : matmul [qSample] (transpose Ksample) = some [[65, 101]] := by
  norm_num [qSample, Ksample, matmul, transpose, ncols, dot_prod, List.range_succ]

theorem sqrt6_gt : (2.4494 : ℝ) < Real.sqrt 6 :=
  (Real.lt_sqrt (by norm_num)).mpr (by norm_num)

theorem sqrt6_lt : Real.sqrt 6 < 2.4495 :=
  (Real.sqrt_lt' (by norm_num)).mpr (by norm_num)

theorem exp14 : (99 : ℝ) < Real.exp 14 := by
  have h4 : (4.5 : ℝ) ≤ Real.exp 3.5 := by
    have := Real.add_one_le_exp (3.5 : ℝ)
    linarith
  have hp : (4.5 : ℝ)^4 ≤ (Real.exp 3.5)^4 :=
    pow_le_pow_left₀ (by norm_num) h4 4
  have he : Real.exp (14 : ℝ) = (Real.exp 3.5)^4 := by
    rw [← Real.exp_nat_mul]
    norm_num
  rw [he]
  nlinarith [hp]

theorem exp_ratio : 99 * Real.exp (65 / Real.sqrt 6) < Real.exp (101 / Real.sqrt 6) := by
  have hs : (0:ℝ) < Real.sqrt 6 := Real.sqrt_pos.mpr (by norm_num)
  have h14 : (14 : ℝ) ≤ 36 / Real.sqrt 6 := by
    rw [le_div_iff₀ hs]
    nlinarith [sqrt6_lt]
  have hmono : Real.exp 14 ≤ Real.exp (36 / Real.sqrt 6) := Real.exp_le_exp.mpr h14
  have hsplit : Real.exp (101 / Real.sqrt 6)
      = Real.exp (65 / Real.sqrt 6) * Real.exp (36 / Real.sqrt 6) := by
    rw [← Real.exp_add]
    congr 1
    field_simp
    ring
  rw [hsplit]
  have hEa : (0:ℝ) < Real.exp (65 / Real.sqrt 6) := Real.exp_pos _
  nlinarith [exp14, hmono, hEa]

theorem scaled_bounds :
    |65 / Real.sqrt 6 - 26.54| < 0.01 ∧ |101 / Real.sqrt 6 - 41.23| < 0.01 := by
  have hs : (0:ℝ) < Real.sqrt 6 := Real.sqrt_pos.mpr (by norm_num)
  constructor
  · rw [abs_lt]
    constructor
    · have : (26.53 : ℝ) < 65 / Real.sqrt 6 := by
        rw [lt_div_iff₀ hs]
        nlinarith [sqrt6_lt]
      linarith
    · have : 65 / Real.sqrt 6 < (26.55 : ℝ) := by
        rw [div_lt_iff₀ hs]
        nlinarith [sqrt6_gt]
      linarith
  · rw [abs_lt]
    constructor
    · have : (41.22 : ℝ) < 101 / Real.sqrt 6 := by
        rw [lt_div_iff₀ hs]
        nlinarith [sqrt6_lt]
      linarith
    · have : 101 / Real.sqrt 6 < (41.24 : ℝ) := by
        rw [div_lt_iff₀ hs]
        nlinarith [sqrt6_gt]
      linarith

/-- C3 counterexample: with perfectly matching 1 × 1 shapes but
non-positive scale dk = -1, the call does not fail: it returns a result
instead of raising a shape error. -/
theorem nonpositive_dk_not_rejected :
    (attention [[1]] [[1]] [[1]] (-1) false).isSome = true := by
  have hS : matmul [[(1 : ℝ)]] (transpose [[1]]) = some [[1]] := by
    norm_num [matmul, transpose, ncols, dot_prod, List.range_succ]
  unfold attention
  rw [hS, Option.some_bind,
    matmul_some (by simp [softmaxRows, scale, softmaxRow])]
  rfl

/-- C3 (amended): a Q/K last-dimension mismatch or a K/V row-count
mismatch makes the computation fail with no result, because the library
matrix product rejects the shapes; but a non-positive dk is not validated
at all — the call still produces a result — and the row-count mismatch is
only detected at the final product, after the softmax has been computed,
not eagerly before any computation. -/
theorem shape_mismatch_fails :
    (∀ (Q K V : Mat) (dk : ℝ) (ra : Bool) (nq dQ nk dK : ℕ),
      isRect Q nq dQ → isRect K nk dK → 0 < nq → 0 < nk → dQ ≠ dK →
      attention Q K V dk ra = none) ∧
    (∀ (Q K V : Mat) (dk : ℝ) (ra : Bool) (nq nk nv d dv : ℕ),
      isRect Q nq d → isRect K nk d → isRect V nv dv →
      0 < nq → 0 < nk → 0 < d → nk ≠ nv →
      attention Q K V dk ra = none) := by
  constructor
  · intro Q K V dk ra nq dQ nk dK hQ hK hnq hnk hne
    have hTlen : (transpose K).length = dK := by
      rw [transpose_length, ncols_eq hK hnk]
    have hbad : ¬ ∀ row ∈ Q, row.length = (transpose K).length := by
      intro hall
      cases Q with
      | nil =>
        have := hQ.1
        simp at this
        omega
      | cons r t =>
        have h1 := hall r (by simp)
        have h2 := hQ.2 r (by simp)
        rw [hTlen] at h1
        omega
    unfold attention
    rw [matmul_none hbad]
    rfl
  · intro Q K V dk ra nq nk nv d dv hQ hK hV hnq hnk hd hne
    have hS := matmul_transpose_eq hK hd hnk hQ.2
    unfold attention
    rw [hS, Option.some_bind]
    have hbad : ¬ ∀ row ∈ softmaxRows
        (scale (Q.map (fun r => K.map (fun k => dot_prod r k))) dk),
        row.length = V.length := by
      intro hall
      cases Q with
      | nil =>
        have := hQ.1
        simp at this
        omega
      | cons qr t =>
        have hmem : softmaxRow ((K.map (fun k => dot_prod qr k)).map
            (fun x => x / Real.sqrt dk)) ∈ softmaxRows
              (scale ((qr :: t).map (fun r => K.map (fun k => dot_prod r k))) dk) := by
          simp [softmaxRows, scale]
        have h1 := hall _ hmem
        simp only [softmaxRow, List.length_map] at h1
        rw [hK.1, hV.1] at h1
        exact hne h1
    rw [matmul_none hbad]
    rfl

/-- C8: the computation is a deterministic pure function of its inputs
and parameters: two invocations of the layer call on equal parameters and
equal inputs return equal results (and likewise for the kernel on equal
Q, K, V, dk, toggle). -/
theorem call_is_deterministic (p q : SDPParams) (X Y : Mat)
    (Q1 Q2 K1 K2 V1 V2 : Mat) (dk1 dk2 : ℝ) (b1 b2 : Bool)
    (hp : p = q) (hX : X = Y) (hQ : Q1 = Q2) (hK : K1 = K2) (hV : V1 = V2)
    (hdk : dk1 = dk2) (hb : b1 = b2) :
    SDPcall p X = SDPcall q Y ∧
    attention Q1 K1 V1 dk1 b1 = attention Q2 K2 V2 dk2 b2 := by
  rw [hp, hX, hQ, hK, hV, hdk, hb]
  exact ⟨rfl, rfl⟩

/-- C9: the exploratory normalization that divides each row of the scaled
score matrix by the row maximum does not produce probability rows: on the
notebook's own sample query and keys, the resulting row sums to 166/101,
not 1. -/
theorem max_normalization_rows_do_not_sum_to_one :
    ∃ M, explAttn [qSample] Ksample = some M ∧ (M.getD 0 []).sum ≠ 1 := by
  have hs : (0:ℝ) < Real.sqrt 6 := Real.sqrt_pos.mpr (by norm_num)
  refine ⟨maxNormRows (scale [[65, 101]] 6), ?_, ?_⟩
  · unfold explAttn
    rw [scores_sample]
    rfl
  · have hle : (65 : ℝ) / Real.sqrt 6 ≤ 101 / Real.sqrt 6 := by
      gcongr
      norm_num
    have hmax : rowMax [65 / Real.sqrt 6, 101 / Real.sqrt 6] = 101 / Real.sqrt 6 := by
      unfold rowMax
      simp only [List.foldl]
      exact max_eq_right hle
    have h101 : (101 : ℝ) / Real.sqrt 6 ≠ 0 := by positivity
    have e1 : (65 / Real.sqrt 6) / (101 / Real.sqrt 6) = (65 : ℝ) / 101 := by
      rw [div_div_div_cancel_right₀]
      exact ne_of_gt hs
    simp only [maxNormRows, scale, List.map_cons, List.map_nil,
      List.getD_cons_zero, List.sum_cons, List.sum_nil]
    rw [hmax, e1, div_self h101]
    norm_num

/-- C10: the loop-based dot product, the single-query row-vector form
q · Kᵗ, and the full matrix form Q · Kᵗ compute the same scores: entry
(i, j) of Q · Kᵗ is dot_prod of query row i and key row j, and the
single-query product is the list of dot products of q with each key
row. -/
theorem score_forms_agree (q : List ℝ) (Q K : Mat) (nq nk d : ℕ)
    (hq : q.length = d) (hQ : isRect Q nq d) (hK : isRect K nk d)
    (hd : 0 < d) (hnk : 0 < nk) :
    matmul [q] (transpose K) = some [K.map (fun k => dot_prod q k)] ∧
    ∃ S, matmul Q (transpose K) = some S ∧
      ∀ i < nq, ∀ j < nk,
        (S.getD i []).getD j 0 = dot_prod (Q.getD i []) (K.getD j []) := by
  constructor
  · have h := matmul_transpose_eq (M := [q]) hK hd hnk
      (by intro row hrow; simp at hrow; rw [hrow]; exact hq)
    simpa using h
  · refine ⟨_, matmul_transpose_eq hK hd hnk hQ.2, ?_⟩
    intro i hi j hj
    exact scoresSpec_entry (by rw [hQ.1]; exact hi) (by rw [hK.1]; exact hj)

theorem getD_zipWith_lt {α β γ : Type _} (f : α → β → γ) (l1 : List α)
    (l2 : List β) (i : ℕ) (h1 : i < l1.length) (h2 : i < l2.length)
    (d : γ) (d1 : α) (d2 : β) :
    (List.zipWith f l1 l2).getD i d = f (l1.getD i d1) (l2.getD i d2) := by
  induction l1 generalizing i l2 with
  | nil => simp at h1
  | cons a t ih =>
    cases l2 with
    | nil => simp at h2
    | cons b2 t2 =>
      cases i with
      | zero => simp
      | succ n =>
        simp only [List.zipWith_cons_cons, List.getD_cons_succ]
        exact ih t2 n (by simpa using h1) (by simpa using h2)

theorem getD_range {n i : ℕ} (h : i < n) (d : ℕ) :
    (List.range n).getD i d = i := by
  rw [List.getD_eq_getElem _ _ (by simpa using h)]
  simp

/-- C6: the layer call computes Q, K and V as three independently
parameterized learned affine projections of the input X (each Dense layer
computes X · W + b entrywise) and then applies exactly the attention
kernel with scale dk to those projections, with the same return_attn
toggle. -/
theorem layer_call_projects_then_attends :
    (∀ (p : SDPParams) (X : Mat),
      SDPcall p X
        = match dense p.Wq p.bq X, dense p.Wk p.bk X, dense p.Wv p.bv X with
          | some Q, some K, some V => attention Q K V p.dk p.return_attn
          | _, _, _ => none) ∧
    (∀ (W : Mat) (b : List ℝ) (X : Mat) (n dm u : ℕ),
      isRect X n dm → isRect W dm u → 0 < dm → b.length = u →
      ∃ Y, dense W b X = some Y ∧ isRect Y n u ∧
        ∀ i < n, ∀ j < u,
          (Y.getD i []).getD j 0
            = dot_prod (X.getD i []) (W.map (fun wr => wr.getD j 0))
              + b.getD j 0) := by
  refine ⟨SDPcall_eq, ?_⟩
  intro W b X n dm u hX hW hdm hb
  have hchk : ∀ row ∈ X, row.length = W.length := by
    intro row hrow
    rw [hW.1]
    exact hX.2 row hrow
  have hmm := matmul_some hchk
  have hcW : ncols W = u := ncols_eq hW hdm
  refine ⟨(X.map (fun ar => (List.range (ncols W)).map (fun c =>
      dot_prod ar (W.map (fun br => br.getD c 0))))).map
        (fun row => List.zipWith (fun y c => y + c) row b), ?_, ?_, ?_⟩
  · unfold dense
    rw [hmm, Option.map_some']
  · constructor
    · simp [hX.1]
    · intro row hrow
      obtain ⟨r2, hr2, rfl⟩ := List.mem_map.mp hrow
      obtain ⟨r3, hr3, rfl⟩ := List.mem_map.mp hr2
      simp [hcW, hb]
  · intro i hi j hj
    have hiP : i < (X.map (fun ar => (List.range (ncols W)).map (fun c =>
        dot_prod ar (W.map (fun br => br.getD c 0))))).length := by
      simpa [hX.1] using hi
    rw [getD_map_lt _ _ i hiP [] []]
    have hiX : i < X.length := by
      rw [hX.1]
      exact hi
    rw [getD_map_lt _ X i hiX [] []]
    have hjr : j < ((List.range (ncols W)).map (fun c =>
        dot_prod (X.getD i []) (W.map (fun br => br.getD c 0)))).length := by
      simpa [hcW] using hj
    have hjb : j < b.length := by
      rw [hb]
      exact hj
    rw [getD_zipWith_lt _ _ _ j hjr hjb 0 0 0]
    congr 1
    rw [getD_map_lt _ _ j (by simpa [hcW] using hj) 0 0]
    rw [getD_range (show j < ncols W by rw [hcW]; exact hj) 0]

/-- C7 counterexample: on the literal notebook inputs the raw score
matrix computed by the code is [[65, 101]] — dot(q, k1) is
1·1 + 2·0 + 3·(-1) + 4·2 + 5·7 + 6·4 = 65 — so it is not [[45, 85]] as
the claim (and the spec's slipped arithmetic) states. -/
theorem literal_scores_counterexample :
    matmul [qSample] (transpose Ksample) = some [[65, 101]] ∧
    matmul [qSample] (transpose Ksample) ≠ some [[45, 85]] := by
  refine ⟨scores_sample, ?_⟩
  rw [scores_sample]
  intro h
  norm_num at h

/-- C7 (amended): for the literal inputs Q = [[1,2,3,4,5,6]],
K = [[1,0,-1,2,7,4],[1,2,3,4,7,6]], dk = 6, the raw score matrix is
exactly [[65, 101]], the scaled scores are within 0.01 of
[[26.54, 41.23]], the softmax row puts almost all weight on the second
key (first entry below 0.01, second above 0.99), and the output row is
entrywise within 0.01·|v1 - v2| of V's second row. -/
theorem literal_scenario_end_to_end (V : Mat) (dv : ℕ) (hV : isRect V 2 dv) :
    matmul [qSample] (transpose Ksample) = some [[65, 101]] ∧
    |65 / Real.sqrt 6 - 26.54| < 0.01 ∧
    |101 / Real.sqrt 6 - 41.23| < 0.01 ∧
    ∃ A O, attention [qSample] Ksample V 6 true = some (.pair A O) ∧
      (A.getD 0 []).getD 0 0 < 0.01 ∧
      0.99 < (A.getD 0 []).getD 1 0 ∧
      ∀ j < dv, |(O.getD 0 []).getD j 0 - (V.getD 1 []).getD j 0|
          ≤ 0.01 * |(V.getD 0 []).getD j 0 - (V.getD 1 []).getD j 0| := by
  obtain ⟨v0, v1, rfl⟩ := List.length_eq_two.mp hV.1
  have hs : (0:ℝ) < Real.sqrt 6 := Real.sqrt_pos.mpr (by norm_num)
  have hEa : (0:ℝ) < Real.exp (65 / Real.sqrt 6) := Real.exp_pos _
  have hEb : (0:ℝ) < Real.exp (101 / Real.sqrt 6) := Real.exp_pos _
  have hT : (0:ℝ) < Real.exp (65 / Real.sqrt 6) + Real.exp (101 / Real.sqrt 6) := by
    linarith
  have hA : softmaxRows (scale [[65, 101]] 6)
      = [[Real.exp (65 / Real.sqrt 6)
            / (Real.exp (65 / Real.sqrt 6) + Real.exp (101 / Real.sqrt 6)),
          Real.exp (101 / Real.sqrt 6)
            / (Real.exp (65 / Real.sqrt 6) + Real.exp (101 / Real.sqrt 6))]] := by
    simp only [scale, softmaxRows, softmaxRow, List.map_cons, List.map_nil,
      List.sum_cons, List.sum_nil, add_zero]
  have h99 := exp_ratio
  have hx : Real.exp (65 / Real.sqrt 6)
      / (Real.exp (65 / Real.sqrt 6) + Real.exp (101 / Real.sqrt 6)) < 0.01 := by
    rw [div_lt_iff₀ hT]
    nlinarith
  have hy : (0.99 : ℝ) < Real.exp (101 / Real.sqrt 6)
      / (Real.exp (65 / Real.sqrt 6) + Real.exp (101 / Real.sqrt 6)) := by
    rw [lt_div_iff₀ hT]
    nlinarith
  have hxnn : 0 ≤ Real.exp (65 / Real.sqrt 6)
      / (Real.exp (65 / Real.sqrt 6) + Real.exp (101 / Real.sqrt 6)) := by
    positivity
  have hsum : Real.exp (65 / Real.sqrt 6)
        / (Real.exp (65 / Real.sqrt 6) + Real.exp (101 / Real.sqrt 6))
      + Real.exp (101 / Real.sqrt 6)
        / (Real.exp (65 / Real.sqrt 6) + Real.exp (101 / Real.sqrt 6)) = 1 := by
    rw [div_add_div_same, div_self (ne_of_gt hT)]
  have hAV := matmul_some
    (A := [[Real.exp (65 / Real.sqrt 6)
        / (Real.exp (65 / Real.sqrt 6) + Real.exp (101 / Real.sqrt 6)),
        Real.exp (101 / Real.sqrt 6)
        / (Real.exp (65 / Real.sqrt 6) + Real.exp (101 / Real.sqrt 6))]])
    (B := [v0, v1]) (by simp)
  refine ⟨scores_sample, scaled_bounds.1, scaled_bounds.2,
    [[Real.exp (65 / Real.sqrt 6)
        / (Real.exp (65 / Real.sqrt 6) + Real.exp (101 / Real.sqrt 6)),
      Real.exp (101 / Real.sqrt 6)
        / (Real.exp (65 / Real.sqrt 6) + Real.exp (101 / Real.sqrt 6))]],
    List.map (fun ar => List.map (fun j =>
        dot_prod ar (List.map (fun br => br.getD j 0) [v0, v1]))
      (List.range (ncols [v0, v1])))
      [[Real.exp (65 / Real.sqrt 6)
          / (Real.exp (65 / Real.sqrt 6) + Real.exp (101 / Real.sqrt 6)),
        Real.exp (101 / Real.sqrt 6)
          / (Real.exp (65 / Real.sqrt 6) + Real.exp (101 / Real.sqrt 6))]],
    ?_, ?_, ?_, ?_⟩
  · unfold attention
    rw [scores_sample, Option.some_bind, hA, hAV, Option.map_some']
    rfl
  · simpa using hx
  · simpa using hy
  · intro j hj
    have hnc : ncols [v0, v1] = dv := by
      simpa [ncols] using hV.2 v0 (by simp)
    have hjlen : j < (List.range (ncols [v0, v1])).length := by
      simpa [hnc] using hj
    simp only [List.map_cons, List.map_nil, List.getD_cons_zero,
      List.getD_cons_succ]
    rw [getD_map_lt _ _ j hjlen 0 0,
      getD_range (show j < ncols [v0, v1] by rw [hnc]; exact hj) 0]
    simp only [dot_prod, List.map_cons, List.map_nil, List.zipWith_cons_cons,
      List.zipWith_nil_right, List.zipWith_nil_left, List.sum_cons,
      List.sum_nil, add_zero]
    have hfin : Real.exp (65 / Real.sqrt 6)
          / (Real.exp (65 / Real.sqrt 6) + Real.exp (101 / Real.sqrt 6))
          * v0.getD j 0
        + Real.exp (101 / Real.sqrt 6)
          / (Real.exp (65 / Real.sqrt 6) + Real.exp (101 / Real.sqrt 6))
          * v1.getD j 0
        - v1.getD j 0
        = Real.exp (65 / Real.sqrt 6)
          / (Real.exp (65 / Real.sqrt 6) + Real.exp (101 / Real.sqrt 6))
          * (v0.getD j 0 - v1.getD j 0) := by
      have hy1 : Real.exp (101 / Real.sqrt 6)
          / (Real.exp (65 / Real.sqrt 6) + Real.exp (101 / Real.sqrt 6))
          = 1 - Real.exp (65 / Real.sqrt 6)
            / (Real.exp (65 / Real.sqrt 6) + Real.exp (101 / Real.sqrt 6)) := by
        linarith
      rw [hy1]
      ring
    rw [hfin, abs_mul, abs_of_nonneg hxnn]
    exact mul_le_mul_of_nonneg_right (le_of_lt hx) (abs_nonneg _)

/-! ### Witnesses: the theorems above applied at concrete inputs -/

/-- Witness for C1 at Q = K = V = [[0]], dk = 1. -/
theorem attention_computes_scaled_softmax_weighting_witness :
    ∃ S A O,
      matmul [[(0:ℝ)]] (transpose [[0]]) = some S ∧
      (∀ i < 1, ∀ j < 1,
        (S.getD i []).getD j 0 = dot_prod ([[(0:ℝ)]].getD i []) ([[(0:ℝ)]].getD j [])) ∧
      A = softmaxRows (scale S 1) ∧
      matmul A [[0]] = some O ∧
      attention [[0]] [[0]] [[0]] 1 true = some (.pair A O) ∧
      attention [[0]] [[0]] [[0]] 1 false = some (.single O) ∧
      isRect O 1 1 :=
  attention_computes_scaled_softmax_weighting [[0]] [[0]] [[0]] 1 1 1 1 1
    ⟨rfl, by simp⟩ ⟨rfl, by simp⟩ ⟨rfl, by simp⟩ one_pos one_pos

/-- Witness for C2 at Q = K = V = [[0]], dk = 1, where the attention
matrix is [[1]] and the output is [[0]]: its single row sums to 1. -/
theorem attention_rows_are_probability_distributions_witness :
    [(1:ℝ)].sum = 1 :=
  ((attention_rows_are_probability_distributions [[0]] [[0]] [[0]] 1 1 1 1 1 [[1]] [[0]]
    ⟨rfl, by simp⟩ ⟨rfl, by simp⟩ ⟨rfl, by simp⟩ one_pos one_pos
    (by
      have hS : matmul [[(0:ℝ)]] (transpose [[0]]) = some [[0]] := by
        norm_num [matmul, transpose, ncols, dot_prod, List.range_succ]
      have hA : softmaxRows (scale [[(0:ℝ)]] 1) = [[1]] := by
        simp [softmaxRows, softmaxRow, scale, Real.exp_zero]
      have hO : matmul [[(1:ℝ)]] [[0]] = some [[0]] := by
        norm_num [matmul, ncols, dot_prod, List.range_succ]
      unfold attention
      rw [hS, Option.some_bind, hA, hO, Option.map_some']
      rfl)) [(1:ℝ)] (by simp)).1

/-- Witness for C3 (amended) at the spec scenario: Q of shape (2, 6) and
K of shape (3, 5) make the call fail. -/
theorem shape_mismatch_fails_witness :
    attention [[1, 2, 3, 4, 5, 6], [1, 2, 3, 4, 5, 6]]
      [[1, 2, 3, 4, 5], [1, 2, 3, 4, 5], [1, 2, 3, 4, 5]] [[1]] 6 false = none :=
  shape_mismatch_fails.1
    [[1, 2, 3, 4, 5, 6], [1, 2, 3, 4, 5, 6]]
    [[1, 2, 3, 4, 5], [1, 2, 3, 4, 5], [1, 2, 3, 4, 5]] [[1]] 6 false 2 6 3 5
    ⟨rfl, by simp⟩ ⟨rfl, by simp⟩ (by norm_num) (by norm_num) (by norm_num)

/-- Witness for C6: the Dense characterization at W = [[2]], b = [3],
X = [[5]]. -/
theorem layer_call_projects_then_attends_witness :
    ∃ Y, dense [[2]] [3] [[5]] = some Y ∧ isRect Y 1 1 ∧
      ∀ i < 1, ∀ j < 1,
        (Y.getD i []).getD j 0
          = dot_prod ([[(5:ℝ)]].getD i []) ([[(2:ℝ)]].map (fun wr => wr.getD j 0))
            + [(3:ℝ)].getD j 0 :=
  layer_call_projects_then_attends.2 [[2]] [3] [[5]] 1 1 1
    ⟨rfl, by simp⟩ ⟨rfl, by simp⟩ one_pos rfl

/-- Witness for C7 (amended) at V = [[10], [20]]. -/
theorem literal_scenario_end_to_end_witness :
    matmul [qSample] (transpose Ksample) = some [[65, 101]] ∧
    |65 / Real.sqrt 6 - 26.54| < 0.01 ∧
    |101 / Real.sqrt 6 - 41.23| < 0.01 ∧
    ∃ A O, attention [qSample] Ksample [[10], [20]] 6 true = some (.pair A O) ∧
      (A.getD 0 []).getD 0 0 < 0.01 ∧
      0.99 < (A.getD 0 []).getD 1 0 ∧
      ∀ j < 1, |(O.getD 0 []).getD j 0 - ([[(10:ℝ)], [20]].getD 1 []).getD j 0|
          ≤ 0.01 * |([[(10:ℝ)], [20]].getD 0 []).getD j 0
              - ([[(10:ℝ)], [20]].getD 1 []).getD j 0| :=
  literal_scenario_end_to_end [[10], [20]] 1 ⟨rfl, by simp⟩

/-- Witness for C8 at concrete parameters and inputs. -/
theorem call_is_deterministic_witness :
    SDPcall ⟨1, [[1]], [0], [[1]], [0], [[1]], [0], false⟩ [[1]]
      = SDPcall ⟨1, [[1]], [0], [[1]], [0], [[1]], [0], false⟩ [[1]] ∧
    attention [[1]] [[1]] [[1]] 1 true = attention [[1]] [[1]] [[1]] 1 true :=
  call_is_deterministic _ _ _ _ _ _ _ _ _ _ _ _ _ _
    rfl rfl rfl rfl rfl rfl rfl

/-- Witness for C10 at the notebook sample query and keys. -/
theorem score_forms_agree_witness :
    matmul [qSample] (transpose Ksample)
      = some [Ksample.map (fun k => dot_prod qSample k)] ∧
    ∃ S, matmul [qSample] (transpose Ksample) = some S ∧
      ∀ i < 1, ∀ j < 2,
        (S.getD i []).getD j 0
          = dot_prod ([qSample].getD i []) (Ksample.getD j []) :=
  score_forms_agree qSample [qSample] Ksample 1 2 6
    (by simp [qSample]) ⟨rfl, by simp [qSample]⟩ ⟨rfl, by simp [Ksample]⟩
    (by norm_num) (by norm_num)

end SDPA
